import Mathlib

/-!
Shallow embedding of the `seasonal` package (trend / periodogram / seasonal
fitting) over exact rationals.

Conventions of the embedding:
* numpy float arrays become `List ℚ`; float arithmetic is idealized as exact
  rational arithmetic.
* `np.isclose(x, 0.0)`, which evaluates `|x| <= atol + rtol*|0| = 1e-8`,
  becomes `|x| ≤ atol` with `atol = 1/10^8`.
* external SciPy routines that are not part of this repository
  (`scipy.signal.welch`, `scipy.stats.theilslopes`, the fitted
  `LSQUnivariateSpline`) are abstracted into an `SciExt` record of arbitrary
  functions; only their interface shape (e.g. a spline is evaluated pointwise
  over the index range, welch returns one power value per FFT bin) is kept.
* Python exceptions become `Except String`; the only raise site in the core
  is the unknown-filter-kind error in `fit_trend`.
-/

/-- `np.isclose` absolute tolerance (numpy default `atol = 1e-8`; the
relative term vanishes when comparing with `0.0`). -/
def atol : ℚ := 1 / 100000000

/-- Python 3 `round` (round half to even), applied to a rational. -/
def pyRound (q : ℚ) : ℤ :=
  if q - (⌊q⌋ : ℚ) < 1/2 then ⌊q⌋
  else if 1/2 < q - (⌊q⌋ : ℚ) then ⌊q⌋ + 1
  else if ⌊q⌋ % 2 = 0 then ⌊q⌋ else ⌊q⌋ + 1

/-- Clamp a Python slice endpoint (possibly negative) to `[0, len]`,
as Python sequence slicing does. -/
def pyClamp (len : ℕ) (i : ℤ) : ℕ :=
  if i < 0 then (max 0 ((len : ℤ) + i)).toNat else min i.toNat len

/-- Python slice `l[a:b]` with possibly negative endpoints. -/
def pySlice {α : Type} (l : List α) (a b : ℤ) : List α :=
  (l.drop (pyClamp l.length a)).take (pyClamp l.length b - pyClamp l.length a)

/-- Overwrite `l[a : a + vals.length]` with `vals` (numpy slice assignment;
the callers in scope always satisfy `a + vals.length ≤ l.length`, where numpy
neither clips nor errors). -/
def setRange {α : Type} (l : List α) (a : ℕ) (vals : List α) : List α :=
  l.take a ++ vals ++ l.drop (a + vals.length)

/-- Insert into a ≤-sorted list (used to realize Python's stable sorts). -/
def insertLe {α : Type} (le : α → α → Bool) (x : α) : List α → List α
  | [] => [x]
  | y :: ys => if le x y then x :: y :: ys else y :: insertLe le x ys

/-- Stable insertion sort realizing `sorted` / `np.sort`. -/
def sortBy {α : Type} (le : α → α → Bool) (l : List α) : List α :=
  l.foldr (insertLe le) []

/-- `np.median` of a list: middle element of the sorted list, or the average
of the two middle elements for even length. -/
def median (l : List ℚ) : ℚ :=
  let s := sortBy (fun a b => decide (a ≤ b)) l
  let n := l.length
  if n % 2 = 1 then s.getD (n / 2) 0
  else (s.getD (n / 2 - 1) 0 + s.getD (n / 2) 0) / 2

/-- `np.mean`. -/
def mean (l : List ℚ) : ℚ := l.sum / l.length

/-- `np.var`: mean squared deviation from the mean. -/
def variance (l : List ℚ) : ℚ :=
  ((l.map (fun y => (y - mean l) ^ 2)).sum) / l.length

/-- Abstracted SciPy externals (not code of this repository).
`theil` stands for `scipy.stats.theilslopes` returning
(slope, intercept, lo_slope, up_slope); `spline` stands for the function
fitted by `scipy.interpolate.LSQUnivariateSpline(index, data, knots)`, taking
the data and segment count that determine the fit; `welch` stands for
`scipy.signal.welch(data, 1.0, scaling='spectrum', nperseg)`, returning one
spectral power value per FFT frequency bin `k/nperseg`, `k = 0..nperseg/2`. -/
structure SciExt where
  theil : List ℚ → ℚ × ℚ × ℚ × ℚ
  spline : List ℚ → ℕ → ℚ → ℚ
  welch : List ℚ → ℕ → List ℚ

/-! ## periodogram.py -/

/-- `MIN_FFT_CYCLES = 3.0` and `MAX_FFT_PERIOD = 512` enter through the
default `max_period = int(min(len(data)/3.0, 512))`. -/
def resolveMaxPeriod (n : ℕ) (maxPeriodArg : Option ℕ) : ℕ :=
  match maxPeriodArg with
  | some m => m
  | none => min (n / 3) 512

/-- FFT window `nperseg = min(max_period * 2, len(data) // 2)`. -/
def npersegOf (n maxPeriod : ℕ) : ℕ := min (maxPeriod * 2) (n / 2)

/-- The `while` loop of `periodogram` that merges adjacent bins whose
reciprocal frequencies round to the same integer period, keeping the maximum
power among the colliding bins (`power[idx-1] = max(power[idx-1], power[idx])`
followed by deletion of entry `idx`). -/
def collapse : List (ℕ × ℚ) → List (ℕ × ℚ)
  | [] => []
  | x :: xs =>
    match collapse xs with
    | [] => [x]
    | y :: ys => if x.1 = y.1 then (x.1, max x.2 y.2) :: ys else x :: y :: ys

/-- Raw (period, power) pairs of `periodogram` before range trimming:
periods `int(round(1.0/freq))` for the non-DC bins `freq = k/nperseg`,
with same-period bins collapsed, and power zeroed at the period equal to
the window length (`power[periods == nperseg] = 0`). -/
def periodogramPre (ext : SciExt) (data : List ℚ) (maxPeriodArg : Option ℕ) :
    List (ℕ × ℚ) :=
  let maxPeriod := resolveMaxPeriod data.length maxPeriodArg
  let nperseg := npersegOf data.length maxPeriod
  let rawPow := ext.welch data nperseg
  let pairs := (List.range' 1 (nperseg / 2)).map
    (fun (k : ℕ) => ((pyRound ((nperseg : ℚ) / (k : ℚ))).toNat, rawPow.getD k 0))
  (collapse pairs).map (fun pr => if pr.1 = nperseg then (pr.1, (0 : ℚ)) else pr)

/-- `min_i = len(periods[periods >= max_period]) - 1` -/
def periodogramLoIdx (pre : List (ℕ × ℚ)) (maxPeriod : ℕ) : ℤ :=
  (pre.countP (fun pr => decide (maxPeriod ≤ pr.1)) : ℤ) - 1

/-- `max_i = len(periods[periods < min_period])` -/
def periodogramHiCnt (pre : List (ℕ × ℚ)) (minPeriod : ℕ) : ℕ :=
  pre.countP (fun pr => decide (pr.1 < minPeriod))

/-- `periodogram(data, min_period, max_period)` as aligned (period, power)
pairs: the collapsed spectrum restricted by
`periods[min_i : -max_i], power[min_i : -max_i]`. -/
def periodogramPairs (ext : SciExt) (data : List ℚ) (minPeriod : ℕ)
    (maxPeriodArg : Option ℕ) : List (ℕ × ℚ) :=
  let maxPeriod := resolveMaxPeriod data.length maxPeriodArg
  let pre := periodogramPre ext data maxPeriodArg
  pySlice pre (periodogramLoIdx pre maxPeriod)
    (-(periodogramHiCnt pre minPeriod : ℤ))

/-- `periodogram` contract: the pair of equal-length sequences
(periods, power). -/
def periodogram (ext : SciExt) (data : List ℚ) (minPeriod : ℕ)
    (maxPeriodArg : Option ℕ) : List ℕ × List ℚ :=
  let pairs := periodogramPairs ext data minPeriod maxPeriodArg
  (pairs.map (·.1), pairs.map (·.2))

/-- Index of the first maximal element (`np.argmax`). -/
def argmaxIdx : List ℚ → ℕ
  | [] => 0
  | [_] => 0
  | x :: y :: ys =>
    if x < (y :: ys).getD (argmaxIdx (y :: ys)) 0 then argmaxIdx (y :: ys) + 1
    else 0

/-- `np.max` of a list. -/
def listMax : List ℚ → ℚ
  | [] => 0
  | x :: xs => xs.foldl max x

/-- One peak record `[periods[peak_i], power[peak_i], min_period, max_period]`
of `periodogram_peaks`. -/
def peakAt (periods : List ℕ) (power : List ℚ) (i : ℕ) : ℕ × ℚ × ℕ × ℕ :=
  (periods.getD i 0, power.getD i 0,
   periods.getD (min (i + 1) (periods.length - 1)) 0,
   periods.getD (i - 1) 0)

/-- The greedy argmax-extraction loop of `periodogram_peaks`: take the argmax,
stop when it falls below `keep`, record the peak, zero it out, repeat.  The
fuel is the number of power entries; when `0 < keep` every iteration zeroes a
previously nonzero entry, so `power.length` iterations are never exceeded and
the fuel-free Python loop and this function agree. -/
def peaksLoop (periods : List ℕ) (keep : ℚ) :
    ℕ → List ℚ → List (ℕ × ℚ × ℕ × ℕ)
  | 0, _ => []
  | fuel + 1, power =>
    let i := argmaxIdx power
    if power.getD i 0 < keep then []
    else peakAt periods power i :: peaksLoop periods keep fuel (power.set i 0)

/-- `periodogram_peaks(data, min_period, max_period, thresh)`. -/
def periodogram_peaks (ext : SciExt) (data : List ℚ) (minPeriod : ℕ)
    (maxPeriodArg : Option ℕ) (thresh : ℚ) : Option (List (ℕ × ℚ × ℕ × ℕ)) :=
  let pp := periodogram ext data minPeriod maxPeriodArg
  let periods := pp.1
  let power := pp.2
  if power.all (fun w => decide (|w| ≤ atol)) then none
  else
    let keep := listMax power * thresh
    let result := peaksLoop periods keep power.length power
    if result.isEmpty then none else some result

/-! ## trend.py -/

/-- `median_filter(data, window)`: centered median over
`data[max(0, i - window//2) : i + window//2 + 1]` for the interior indices
`window//2 <= i < len(data) - window//2`, the boundary samples left
untouched. -/
def median_filter (data : List ℚ) (window : ℕ) : List ℚ :=
  let half := window / 2
  let n := data.length
  (List.range n).map (fun i =>
    if half ≤ i ∧ i < n - half then median ((data.drop (i - half)).take (i + half + 1 - (i - half)))
    else data.getD i 0)

/-- Partial sum `cum[j]` of `cum = np.concatenate(([0], np.cumsum(data)))`. -/
def cumAt (data : List ℚ) (j : ℕ) : ℚ := (data.take j).sum

/-- `mean_filter(data, window)`:
`filtered[half:-half] = (cum[window:] - cum[:-window]) / window`, i.e.
interior index `i` receives `(cum[i+half+1] - cum[i-half]) / window`. -/
def mean_filter (data : List ℚ) (window : ℕ) : List ℚ :=
  let half := window / 2
  let n := data.length
  (List.range n).map (fun i =>
    if half ≤ i ∧ i < n - half then (cumAt data (i + half + 1) - cumAt data (i - half)) / window
    else data.getD i 0)

/-- `line_filter(data, window)`: Theil-Sen slope of the interior of the
median-filtered data; a flat median line when the slope confidence interval
straddles zero, else the extrapolated line
`slope * arange(len) + (median(data) - (len-1)/2 * slope)`. -/
def line_filter (ext : SciExt) (data : List ℚ) (window : ℕ) : List ℚ :=
  let half := window / 2
  let coarse := pySlice (median_filter data window) (half : ℤ) (-(half : ℤ))
  let ts := ext.theil coarse
  let slope := ts.1
  let lower := ts.2.2.1
  let upper := ts.2.2.2
  if lower ≤ 0 ∧ 0 ≤ upper then List.replicate data.length (median data)
  else (List.range data.length).map
    (fun (i : ℕ) => slope * (i : ℚ) + (median data - ((data.length : ℚ) - 1) / 2 * slope))

/-- `spline_filter(data, nsegs)`: the abstracted least-squares cubic spline
evaluated over the index range `np.arange(len(data))`. -/
def spline_filter (ext : SciExt) (data : List ℚ) (nsegs : ℕ) : List ℚ :=
  (List.range data.length).map (fun (i : ℕ) => ext.spline data nsegs (i : ℚ))

/-- `aglet(src, window)`: replace the `window//2` samples at each end with
lines of Theil-Sen slope fitted to the end windows, extrapolated outward from
the nearest interior point (`dst[0:half] = arange(-half, 0)*leftslope +
src[half]`, `dst[-half:] = arange(1, half+1)*rightslope + src[-half-1]`). -/
def aglet (ext : SciExt) (src : List ℚ) (window : ℕ) : List ℚ :=
  let n := src.length
  let half := window / 2
  let leftslope := (ext.theil (src.take window)).1
  let rightslope := (ext.theil (src.drop (n - window))).1
  let dst1 := setRange src 0 ((List.range half).map
    (fun (t : ℕ) => ((t : ℚ) - (half : ℚ)) * leftslope + src.getD half 0))
  setRange dst1 (n - half) ((List.range half).map
    (fun (t : ℕ) => ((t : ℚ) + 1) * rightslope + src.getD (n - half - 1) 0))

/-- The odd smoothing window `(int(period * ptimes) // 2) * 2 - 1`.
(Truncated ℕ subtraction: for `period * ptimes < 2` Python would produce the
window `-1`, on which every filter is out of its domain; all statements below
constrain the window to at least 3.) -/
def windowOf (period ptimes : ℕ) : ℕ := (period * ptimes / 2) * 2 - 1

/-- `np.average(values, weights)`. -/
def weightedAverage (values : List ℕ) (weights : List ℚ) : ℚ :=
  (List.zipWith (fun (v : ℕ) (w : ℚ) => (v : ℚ) * w) values weights).sum / weights.sum

/-- `guess_trended_period(data)`: median-filter with a broad window based on
`max_period = min(len(data)//3, 512)`, then return the power-weighted average
of the periodogram peaks of the residual (or `max_period` if none). -/
def guess_trended_period (ext : SciExt) (data : List ℚ) : ℕ :=
  let maxPeriod := min (data.length / 3) 512
  let window := windowOf maxPeriod 2
  let broad := aglet ext (median_filter data window) window
  let resid := List.zipWith (fun a b => a - b) data broad
  match periodogram_peaks ext resid 4 none (9/10) with
  | none => maxPeriod
  | some peaks =>
    (pyRound (weightedAverage (peaks.map (·.1)) (peaks.map (·.2.1)))).toNat

/-- Period resolution of `fit_trend`: the argument if supplied, else
`guess_trended_period(data)`. -/
def resolvePeriod (ext : SciExt) (data : List ℚ) (periodArg : Option ℕ) : ℕ :=
  match periodArg with
  | some p => p
  | none => guess_trended_period ext data

/-- `fit_trend(data, kind, period, ptimes)`.  `kind = None` returns the
broadcast global mean before any window sizing; otherwise the period is
estimated if missing, the odd window derived, and the named filter applied;
an unknown kind raises (`Except.error`). -/
def fit_trend (ext : SciExt) (data : List ℚ) (kind : Option String)
    (periodArg : Option ℕ) (ptimes : ℕ) : Except String (List ℚ) :=
  match kind with
  | none => .ok (List.replicate data.length (mean data))
  | some k =>
    let window := windowOf (resolvePeriod ext data periodArg) ptimes
    if k = "median" then .ok (aglet ext (median_filter data window) window)
    else if k = "mean" then .ok (aglet ext (mean_filter data window) window)
    else if k = "line" then .ok (line_filter ext data window)
    else if k = "spline" then
      let nsegs := data.length / (window * 2) + 1
      .ok (aglet ext (spline_filter ext data nsegs) window)
    else .error ("adjust_trend: unknown filter type " ++ k)

/-! ## seasonal.py -/

/-- The accumulation loop of `gcv`: a single pass over the residual keeping
per-phase sum, sum of squares and count, with the phase index advancing as
`idx = (idx + 1) % period`. -/
def gcvLoop (period : ℕ) : List ℚ → ℕ → (ℕ → ℚ) → (ℕ → ℚ) → (ℕ → ℚ) →
    (ℕ → ℚ) × (ℕ → ℚ) × (ℕ → ℚ)
  | [], _, sy, sy2, cyc => (sy, sy2, cyc)
  | y :: ys, idx, sy, sy2, cyc =>
    gcvLoop period ys ((idx + 1) % period)
      (Function.update sy idx (sy idx + y))
      (Function.update sy2 idx (sy2 idx + y * y))
      (Function.update cyc idx (cyc idx + 1))

/-- `gcv(data, period)`: per-phase means `sum_y / cycles`, per-phase
`sse = sum_y2 - sum_y**2 / cycles`, and
`cv_mse = ((cycles/(cycles-1))**2 * sse).sum() / len(data)` clamped to `0.0`
when `np.isclose(cv_mse, 0.0)`. -/
def gcv (data : List ℚ) (period : ℕ) : ℚ × List ℚ :=
  let acc := gcvLoop period data 0 (fun _ => 0) (fun _ => 0) (fun _ => 0)
  let sy := acc.1
  let sy2 := acc.2.1
  let cyc := acc.2.2
  let seasons := (List.range period).map (fun j => sy j / cyc j)
  let sse := fun j => sy2 j - (sy j) ^ 2 / cyc j
  let cvMse :=
    ((List.range period).map (fun j => (cyc j / (cyc j - 1)) ^ 2 * sse j)).sum
      / (data.length : ℚ)
  (if |cvMse| ≤ atol then 0 else cvMse, seasons)

/-- The `trend` argument of `fit_seasons` / `adjust_seasons`: `None`, a
precomputed ndarray, or a filter-kind string. -/
inductive TrendArg : Type
  | null : TrendArg
  | arr (t : List ℚ) : TrendArg
  | kind (k : String) : TrendArg

/-- Trend resolution of `fit_seasons` (lines 86-91): `None` becomes a zero
trend, an ndarray is used as given, a string is fitted via `fit_trend`. -/
def resolve_trend (ext : SciExt) (data : List ℚ) (trendArg : TrendArg)
    (periodArg : Option ℕ) : Except String (List ℚ) :=
  match trendArg with
  | .null => .ok (List.replicate data.length 0)
  | .arr t => .ok t
  | .kind k => fit_trend ext data (some k) periodArg 2

/-- Lexicographic comparison of peak quadruples, as Python's `sorted` compares
lists `[period, power, min_period, max_period]`. -/
def quadLe (a b : ℕ × ℚ × ℕ × ℕ) : Bool :=
  if a.1 ≠ b.1 then decide (a.1 < b.1)
  else if a.2.1 ≠ b.2.1 then decide (a.2.1 < b.2.1)
  else if a.2.2.1 ≠ b.2.2.1 then decide (a.2.2.1 < b.2.2.1)
  else decide (a.2.2.2 ≤ b.2.2.2)

/-- The period-search loop of `fit_seasons`: sweep every interval, advancing a
single running `period` lower bound (`period = max(period, interval[2])`),
score each period by `gcv` and keep the minimum cross-validated MSE.  The
running best is `none` while `cv_mse` is still `np.inf`. -/
def searchBest (resid : List ℚ) (peaks : List (ℕ × ℚ × ℕ × ℕ)) :
    Option (ℚ × List ℚ) :=
  (peaks.foldl (fun (st : ℕ × Option (ℚ × List ℚ)) iv =>
    let start := max st.1 iv.2.2.1
    let stop := iv.2.2.2
    (List.range' start (stop + 1 - start)).foldl (fun st2 p =>
      let g := gcv resid p
      (p + 1,
        match st2.2 with
        | none => some g
        | some best => if g.1 < best.1 then some g else some best))
      (start, st.2))
    (0, none)).2

/-- `fit_seasons(data, trend, period, min_ev, periodogram_thresh)`. -/
def fit_seasons (ext : SciExt) (data : List ℚ) (trendArg : TrendArg)
    (periodArg : Option ℕ) (minEv : ℚ) (pthresh : Option ℚ) :
    Except String (Option (List ℚ) × List ℚ) :=
  match resolve_trend ext data trendArg periodArg with
  | .error e => .error e
  | .ok trend =>
    let resid := List.zipWith (fun a b => a - b) data trend
    let v := variance resid
    if |v| ≤ atol then .ok (none, trend)
    else if periodArg.getD 0 ≠ 0 then
      let g := gcv resid (periodArg.getD 0)
      let fev := 1 - g.1 / v
      if |g.1| ≤ atol ∨ minEv ≤ fev then .ok (some g.2, trend)
      else .ok (none, trend)
    else
      let searched : Option (List (ℕ × ℚ × ℕ × ℕ)) :=
        if pthresh.getD 0 ≠ 0 ∧ periodArg = none then
          match periodogram_peaks ext resid 4 none (pthresh.getD 0) with
          | none => none
          | some pk => some (sortBy quadLe pk)
        else some [(0, 0, 4, data.length / 2)]
      match searched with
      | none => .ok (none, trend)
      | some peaks =>
        match searchBest resid peaks with
        | none => .ok (none, trend)
        | some best =>
          if |best.1| ≤ atol ∨ minEv ≤ 1 - best.1 / v then .ok (some best.2, trend)
          else .ok (none, trend)

/-- `np.tile(seasons, ncycles)`. -/
def tile (s : List ℚ) (n : ℕ) : List ℚ := (List.replicate n s).flatten

/-- Seasons resolution of `adjust_seasons`: the supplied offsets, or the
profile found by `fit_seasons` with the supplied trend and period. -/
def resolve_seasons (ext : SciExt) (data : List ℚ) (trendArg : TrendArg)
    (periodArg : Option ℕ) (seasonsArg : Option (List ℚ)) :
    Except String (Option (List ℚ)) :=
  match seasonsArg with
  | some s => .ok (some s)
  | none =>
    match fit_seasons ext data trendArg periodArg (5/100) (some (1/2)) with
    | .error e => .error e
    | .ok r => .ok r.1

/-- `adjust_seasons(data, trend, period, seasons)`: tile the profile over
`ncycles = len(data) // len(seasons) + 1` copies, truncate to `len(data)` and
subtract; `None` when no profile was found. -/
def adjust_seasons (ext : SciExt) (data : List ℚ) (trendArg : TrendArg)
    (periodArg : Option ℕ) (seasonsArg : Option (List ℚ)) :
    Except String (Option (List ℚ)) :=
  match resolve_seasons ext data trendArg periodArg seasonsArg with
  | .error e => .error e
  | .ok none => .ok none
  | .ok (some s) =>
    let ncycles := data.length / s.length + 1
    let reps := tile s ncycles
    .ok (some (List.zipWith (fun a b => a - b) data (reps.take data.length)))

/-! ## Specification-side definitions (for comparison with the code).
These follow the wording of the specification, not the source, and exist only
to state refinement claims about `gcv`. -/

/-- The phase bucket of the specification: the residual samples at indices
`i` with `i % period = j`. -/
def specBucket (data : List ℚ) (period j : ℕ) : List ℚ :=
  ((data.enum.filter (fun p => p.1 % period = j)).map (·.2))

/-- A phase's sum of squared deviations from its sample mean. -/
def specPhaseSse (b : List ℚ) : ℚ := (b.map (fun y => (y - mean b) ^ 2)).sum

/-- The specification's cross-validated MSE: the sum over phases of
`(n/(n-1))^2` times the phase's sum of squared deviations from its mean,
divided by the total sample count. -/
def specCvMse (data : List ℚ) (period : ℕ) : ℚ :=
  ((List.range period).map (fun j =>
    let b := specBucket data period j
    ((b.length : ℚ) / ((b.length : ℚ) - 1)) ^ 2 * specPhaseSse b)).sum
    / (data.length : ℚ)

/-- A concrete instantiation of the abstracted SciPy externals, used in the
closed witness and counterexample statements. -/
def sciZero : SciExt where
  theil := fun _ => (0, 0, 0, 0)
  spline := fun _ _ _ => 0
  welch := fun _ _ => []

/-- Externals whose welch spectrum is identically one on every bin (a
possible spectral estimate), used in closed statements about the
periodogram post-processing. -/
def sciOnes : SciExt where
  theil := fun _ => (0, 0, 0, 0)
  spline := fun _ _ _ => 0
  welch := fun _ nperseg => List.replicate (nperseg / 2 + 1) 1

/-! ## Theorems -/

/-- C10: when a seasonal profile is supplied, `adjust_seasons` never looks at
the trend or period arguments: the subtraction branch uses only `data` and
`seasons`. -/
theorem adjust_seasons_ignores_trend_and_period (ext : SciExt) (data : List ℚ)
    (t1 t2 : TrendArg) (p1 p2 : Option ℕ) (s : List ℚ) :
    adjust_seasons ext data t1 p1 (some s) = adjust_seasons ext data t2 p2 (some s) := rfl

/-- C8: `fit_trend` fails with the unknown-filter error exactly when `kind`
is a string other than "mean", "median", "line", "spline"; `kind = None` and
the four recognized kinds return a trend without raising. -/
theorem fit_trend_error_iff_unknown_kind (ext : SciExt) (data : List ℚ)
    (kind : Option String) (periodArg : Option ℕ) (ptimes : ℕ) :
    (∃ e, fit_trend ext data kind periodArg ptimes = .error e) ↔
      (∃ k, kind = some k ∧ k ≠ "mean" ∧ k ≠ "median" ∧ k ≠ "line" ∧ k ≠ "spline") := by
  cases kind with
  | none => simp [fit_trend]
  | some k =>
    simp only [fit_trend]
    split_ifs with h1 h2 h3 h4 <;> simp_all

/-- C9: a numerically zero-variance detrended residual is a terminal case:
`fit_seasons` returns `(None, trend)` with the resolved trend, not an
error. -/
theorem fit_seasons_zero_variance_returns_none (ext : SciExt) (data : List ℚ)
    (trendArg : TrendArg) (periodArg : Option ℕ) (minEv : ℚ) (pthresh : Option ℚ)
    (t : List ℚ) (hres : resolve_trend ext data trendArg periodArg = .ok t)
    (hvar : |variance (List.zipWith (fun a b => a - b) data t)| ≤ atol) :
    fit_seasons ext data trendArg periodArg minEv pthresh = .ok (none, t) := by
  simp only [fit_seasons, hres, if_pos hvar]

/-- C9 witness: a constant series with a null trend argument. -/
theorem fit_seasons_zero_variance_witness :
    resolve_trend sciZero [5, 5, 5] TrendArg.null none = .ok (List.replicate 3 0)
    ∧ |variance (List.zipWith (fun a b => a - b) [5, 5, 5] (List.replicate 3 0))| ≤ atol
    ∧ fit_seasons sciZero [5, 5, 5] TrendArg.null none (1/20) (some (1/2))
        = .ok (none, List.replicate 3 0) := by
  refine ⟨rfl, ?_, ?_⟩
  · norm_num [variance, mean, atol, List.replicate]
  · exact fit_seasons_zero_variance_returns_none _ _ _ _ _ _ _ rfl
      (by norm_num [variance, mean, atol, List.replicate])

/-- C2 (divergence witness): with a requested fixed period too large for the
data (`len(data) < 2 * period`), `fit_seasons` performs no insufficient-data
check at all: it proceeds into `gcv` (whose buckets then contain fewer than
two samples, dividing by `cycles - 1 = 0`) and returns an ordinary `(seasons
| None, trend)` value instead of signalling an InsufficientData error. -/
theorem fit_seasons_short_data_returns_ok (ext : SciExt) (data : List ℚ)
    (p : ℕ) (minEv : ℚ) (pthresh : Option ℚ) (hp : p ≠ 0)
    (hshort : data.length < 2 * p) :
    ∃ r, fit_seasons ext data TrendArg.null (some p) minEv pthresh = .ok r := by
  simp only [fit_seasons, resolve_trend]
  split_ifs <;> first
  | exact ⟨_, rfl⟩
  | simp_all

/-- C2 witness: five samples with period 3 (so one phase bucket has a single
sample) still produce an ordinary `.ok` result. -/
theorem fit_seasons_short_data_witness :
    (3 : ℕ) ≠ 0 ∧ ([ (1:ℚ), 2, 3, 4, 5 ].length < 2 * 3) ∧
    ∃ r, fit_seasons sciZero [1, 2, 3, 4, 5] TrendArg.null (some 3) (1/20)
      (some (1/2)) = .ok r :=
  ⟨by decide, by decide,
   fit_seasons_short_data_returns_ok sciZero [1, 2, 3, 4, 5] 3 (1/20)
     (some (1/2)) (by decide) (by decide)⟩

/-- Length of a tiled profile. -/
theorem tile_length (s : List ℚ) (n : ℕ) : (tile s n).length = n * s.length := by
  induction n with
  | zero => simp [tile]
  | succ m ih =>
    have hstep : tile s (m + 1) = s ++ tile s m := by
      simp [tile, List.replicate_succ]
    rw [hstep, List.length_append, ih, Nat.succ_mul]
    omega

/-- A tiled profile repeats the profile with period `s.length`. -/
theorem tile_getD (s : List ℚ) (n i : ℕ) (h : i < n * s.length) :
    (tile s n).getD i 0 = s.getD (i % s.length) 0 := by
  induction n generalizing i with
  | zero => omega
  | succ m ih =>
    have hstep : tile s (m + 1) = s ++ tile s m := by
      simp [tile, List.replicate_succ]
    rcases lt_or_ge i s.length with hlt | hge
    · rw [hstep, List.getD_append _ _ _ _ hlt, Nat.mod_eq_of_lt hlt]
    · rw [hstep, List.getD_append_right _ _ _ _ hge]
      have h2 : i - s.length < m * s.length := by
        have hsm : (m + 1) * s.length = m * s.length + s.length := by ring
        omega
      rw [ih _ h2]
      congr 1
      conv_rhs => rw [show i = s.length + (i - s.length) by omega]
      rw [Nat.add_mod_left]

/-- `getD` through a pointwise `zipWith` subtraction. -/
theorem getD_zipWith_sub (l1 l2 : List ℚ) (i : ℕ) (h1 : i < l1.length)
    (h2 : i < l2.length) :
    (List.zipWith (fun a b => a - b) l1 l2).getD i 0
      = l1.getD i 0 - l2.getD i 0 := by
  have hz : i < (List.zipWith (fun (a : ℚ) (b : ℚ) => a - b) l1 l2).length := by
    rw [List.length_zipWith]; exact lt_min h1 h2
  rw [List.getD_eq_getElem _ _ hz, List.getD_eq_getElem _ _ h1,
    List.getD_eq_getElem _ _ h2, List.getElem_zipWith]

/-- `getD` through `take`. -/
theorem getD_take (l : List ℚ) (n i : ℕ) (hi : i < n) (hl : i < l.length) :
    (l.take n).getD i 0 = l.getD i 0 := by
  have ht : i < (l.take n).length := by
    rw [List.length_take]; exact lt_min hi hl
  rw [List.getD_eq_getElem _ _ ht, List.getD_eq_getElem _ _ hl, List.getElem_take]

/-- The tiled cover of the series is long enough:
`len(data) < (len(data) // len(s) + 1) * len(s)`. -/
theorem length_lt_ncycles_mul (N L : ℕ) (hL : L ≠ 0) : N < (N / L + 1) * L := by
  have h1 := Nat.div_add_mod N L
  have h2 : N % L < L := Nat.mod_lt _ (Nat.pos_of_ne_zero hL)
  nlinarith [h1, h2]

/-- C5: with a resolved seasonal profile `s` (supplied, or found by
`fit_seasons`), `adjust_seasons` returns a series of the same length as the
data whose `i`-th entry is `data[i] - s[i mod len(s)]` (the profile tiled
over the series, last cycle truncated); with no profile it returns `None`. -/
theorem adjust_seasons_subtracts_tiled_profile (ext : SciExt) (data : List ℚ)
    (trendArg : TrendArg) (periodArg : Option ℕ) (seasonsArg : Option (List ℚ)) :
    (∀ s, resolve_seasons ext data trendArg periodArg seasonsArg = .ok (some s) →
      s ≠ [] →
      ∃ a, adjust_seasons ext data trendArg periodArg seasonsArg = .ok (some a)
        ∧ a.length = data.length
        ∧ ∀ i < data.length, a.getD i 0 = data.getD i 0 - s.getD (i % s.length) 0)
    ∧ (resolve_seasons ext data trendArg periodArg seasonsArg = .ok none →
        adjust_seasons ext data trendArg periodArg seasonsArg = .ok none) := by
  constructor
  · intro s hres hs
    have hL : s.length ≠ 0 := fun h => hs (List.length_eq_zero.mp h)
    have hcov : data.length ≤ (data.length / s.length + 1) * s.length :=
      le_of_lt (length_lt_ncycles_mul _ _ hL)
    refine ⟨List.zipWith (fun a b => a - b) data
        ((tile s (data.length / s.length + 1)).take data.length), ?_, ?_, ?_⟩
    · simp only [adjust_seasons, hres]
    · rw [List.length_zipWith, List.length_take, tile_length]
      omega
    · intro i hi
      have htake : i < ((tile s (data.length / s.length + 1)).take data.length).length := by
        rw [List.length_take, tile_length]; omega
      rw [getD_zipWith_sub _ _ _ hi htake]
      rw [getD_take _ _ _ hi (by rw [tile_length]; omega)]
      rw [tile_getD _ _ _ (by omega)]
  · intro hres
    simp only [adjust_seasons, hres]

/-- C5 witness: a supplied two-element profile over three samples. -/
theorem adjust_seasons_subtracts_tiled_profile_witness :
    resolve_seasons sciZero [10, 20, 30] TrendArg.null none (some [1, 2])
        = .ok (some [1, 2])
    ∧ ([(1 : ℚ), 2] ≠ [])
    ∧ ∃ a, adjust_seasons sciZero [10, 20, 30] TrendArg.null none (some [1, 2])
          = .ok (some a)
        ∧ a.length = ([(10 : ℚ), 20, 30]).length
        ∧ ∀ i < ([(10 : ℚ), 20, 30]).length,
            a.getD i 0 = ([(10 : ℚ), 20, 30]).getD i 0
              - ([(1 : ℚ), 2]).getD (i % ([(1 : ℚ), 2]).length) 0 :=
  ⟨rfl, by decide,
   (adjust_seasons_subtracts_tiled_profile sciZero [10, 20, 30] TrendArg.null
      none (some [1, 2])).1 [1, 2] rfl (by decide)⟩

/-- The single pass of `gcv` computes, for every phase `j`, the running sum,
sum of squares and count of the samples at positions `i ≡ j (mod period)`;
positions are numbered from `k` and the loop's phase index is `k % period`. -/
theorem gcvLoop_sums (period : ℕ) (ys : List ℚ) :
    ∀ (k : ℕ) (sy sy2 cyc : ℕ → ℚ) (j : ℕ),
      ((gcvLoop period ys (k % period) sy sy2 cyc).1 j
          = sy j + (((List.enumFrom k ys).filter
              (fun p => p.1 % period = j)).map (·.2)).sum)
      ∧ ((gcvLoop period ys (k % period) sy sy2 cyc).2.1 j
          = sy2 j + (((List.enumFrom k ys).filter
              (fun p => p.1 % period = j)).map (fun p => p.2 * p.2)).sum)
      ∧ ((gcvLoop period ys (k % period) sy sy2 cyc).2.2 j
          = cyc j + (((List.enumFrom k ys).filter
              (fun p => p.1 % period = j)).length : ℚ)) := by
  induction ys with
  | nil => intro k sy sy2 cyc j; simp [gcvLoop]
  | cons y t ih =>
    intro k sy sy2 cyc j
    rw [List.enumFrom_cons]
    have hrec : (k % period + 1) % period = (k + 1) % period :=
      Nat.mod_add_mod k period 1
    simp only [gcvLoop]
    rw [hrec]
    obtain ⟨ih1, ih2, ih3⟩ := ih (k + 1)
      (Function.update sy (k % period) (sy (k % period) + y))
      (Function.update sy2 (k % period) (sy2 (k % period) + y * y))
      (Function.update cyc (k % period) (cyc (k % period) + 1)) j
    refine ⟨?_, ?_, ?_⟩
    · rw [ih1, List.filter_cons]
      by_cases hj : k % period = j
      · subst hj
        simp [Function.update_same]
        ring
      · have hj2 : j ≠ k % period := fun h => hj h.symm
        simp [hj, Function.update_apply, hj2]
    · rw [ih2, List.filter_cons]
      by_cases hj : k % period = j
      · subst hj
        simp [Function.update_same]
        ring
      · have hj2 : j ≠ k % period := fun h => hj h.symm
        simp [hj, Function.update_apply, hj2]
    · rw [ih3, List.filter_cons]
      by_cases hj : k % period = j
      · subst hj
        simp [Function.update_same]
        ring
      · have hj2 : j ≠ k % period := fun h => hj h.symm
        simp [hj, Function.update_apply, hj2]

/-- The accumulators of `gcv` equal the phase-bucket sum, sum of squares and
count of the specification's partition by `i mod period`. -/
theorem gcv_acc_eq_bucket (data : List ℚ) (period j : ℕ) :
    (gcvLoop period data 0 (fun _ => 0) (fun _ => 0) (fun _ => 0)).1 j
        = (specBucket data period j).sum
    ∧ (gcvLoop period data 0 (fun _ => 0) (fun _ => 0) (fun _ => 0)).2.1 j
        = ((specBucket data period j).map (fun y => y * y)).sum
    ∧ (gcvLoop period data 0 (fun _ => 0) (fun _ => 0) (fun _ => 0)).2.2 j
        = ((specBucket data period j).length : ℚ) := by
  have h0 : (0 : ℕ) = 0 % period := (Nat.zero_mod period).symm
  obtain ⟨h1, h2, h3⟩ := gcvLoop_sums period data 0
    (fun _ => 0) (fun _ => 0) (fun _ => 0) j
  have henum : data.enum = List.enumFrom 0 data := rfl
  refine ⟨?_, ?_, ?_⟩
  · rw [h0, h1, specBucket, henum]
    simp
  · rw [h0, h2, specBucket, henum]
    simp only [List.map_map, zero_add]
    congr 1
  · rw [h0, h3, specBucket, henum]
    simp

/-- Expansion of a sum of squared deviations about an arbitrary center. -/
theorem sum_sq_dev (b : List ℚ) (m : ℚ) :
    (b.map (fun y => (y - m) ^ 2)).sum
      = (b.map (fun y => y * y)).sum - 2 * m * b.sum + (b.length : ℚ) * m ^ 2 := by
  induction b with
  | nil => simp
  | cons x t ih =>
    simp only [List.map_cons, List.sum_cons, List.length_cons, ih]
    push_cast
    ring

/-- For a nonempty bucket, the sum of squared deviations from the mean equals
the computational form `sum_y2 - sum_y**2 / n` used by `gcv`. -/
theorem specPhaseSse_eq (b : List ℚ) (hb : b ≠ []) :
    specPhaseSse b = (b.map (fun y => y * y)).sum - b.sum ^ 2 / (b.length : ℚ) := by
  have hn : (b.length : ℚ) ≠ 0 := by
    simpa using fun h => hb (List.length_eq_zero.mp h)
  rw [specPhaseSse, mean, sum_sq_dev]
  field_simp
  ring

/-- Every phase bucket `j < period` is nonempty once `period ≤ len(data)`
(the sample at position `j` belongs to it). -/
theorem specBucket_ne_nil (data : List ℚ) (period j : ℕ) (hj : j < period)
    (hlen : period ≤ data.length) : specBucket data period j ≠ [] := by
  have hjd : j < data.length := lt_of_lt_of_le hj hlen
  have hjde : j < data.enum.length := by
    simpa [List.enum_length] using hjd
  have hmem : (j, data[j]) ∈ data.enum := by
    have := List.getElem_mem hjde
    rwa [List.getElem_enum] at this
  have hfil : (j, data[j]) ∈ data.enum.filter (fun p => decide (p.1 % period = j)) :=
    List.mem_filter.mpr ⟨hmem, by simp [Nat.mod_eq_of_lt hj]⟩
  intro hnil
  rw [specBucket] at hnil
  have := List.map_eq_nil.mp hnil
  rw [this] at hfil
  exact List.not_mem_nil _ hfil

/-- C1 (amended): for a residual of length at least `2 * period`, `gcv`
returns the per-phase sample means as the seasonal offsets, and a `cv_mse`
equal to the specification's `(n/(n-1))^2`-inflated sum of squared deviations
divided by the total sample count — except that a value within `atol` of zero
is clamped to exactly `0.0` (`np.isclose` noise clamp, source line 204). -/
theorem gcv_phase_means_and_clamped_cvmse (data : List ℚ) (period : ℕ)
    (hp : 1 ≤ period) (hlen : 2 * period ≤ data.length) :
    (gcv data period).2
        = (List.range period).map (fun j => mean (specBucket data period j))
    ∧ (gcv data period).1
        = if |specCvMse data period| ≤ atol then 0
          else specCvMse data period := by
  have hped : period ≤ data.length := by omega
  have hmean : ∀ j ∈ List.range period,
      (gcvLoop period data 0 (fun _ => 0) (fun _ => 0) (fun _ => 0)).1 j
        / (gcvLoop period data 0 (fun _ => 0) (fun _ => 0) (fun _ => 0)).2.2 j
      = mean (specBucket data period j) := by
    intro j _
    obtain ⟨e1, _, e3⟩ := gcv_acc_eq_bucket data period j
    rw [e1, e3, mean]
  have hterm : ∀ j ∈ List.range period,
      ((gcvLoop period data 0 (fun _ => 0) (fun _ => 0) (fun _ => 0)).2.2 j
          / ((gcvLoop period data 0 (fun _ => 0) (fun _ => 0) (fun _ => 0)).2.2 j - 1)) ^ 2
        * ((gcvLoop period data 0 (fun _ => 0) (fun _ => 0) (fun _ => 0)).2.1 j
          - ((gcvLoop period data 0 (fun _ => 0) (fun _ => 0) (fun _ => 0)).1 j) ^ 2
            / (gcvLoop period data 0 (fun _ => 0) (fun _ => 0) (fun _ => 0)).2.2 j)
      = (((specBucket data period j).length : ℚ)
            / (((specBucket data period j).length : ℚ) - 1)) ^ 2
          * specPhaseSse (specBucket data period j) := by
    intro j hj
    rw [List.mem_range] at hj
    obtain ⟨e1, e2, e3⟩ := gcv_acc_eq_bucket data period j
    rw [e1, e2, e3, specPhaseSse_eq _ (specBucket_ne_nil data period j hj hped)]
  constructor
  · simp only [gcv]
    exact List.map_congr_left hmean
  · simp only [gcv, specCvMse]
    rw [List.map_congr_left hterm]

/-- C1 witness: four samples, period two. -/
theorem gcv_phase_means_witness :
    1 ≤ 2 ∧ 2 * 2 ≤ ([(1 : ℚ), 2, 3, 4]).length ∧
    ((gcv [(1 : ℚ), 2, 3, 4] 2).2
        = (List.range 2).map (fun j => mean (specBucket [(1 : ℚ), 2, 3, 4] 2 j))
      ∧ (gcv [(1 : ℚ), 2, 3, 4] 2).1
        = if |specCvMse [(1 : ℚ), 2, 3, 4] 2| ≤ atol then 0
          else specCvMse [(1 : ℚ), 2, 3, 4] 2) :=
  ⟨by decide, by decide,
   gcv_phase_means_and_clamped_cvmse [1, 2, 3, 4] 2 (by decide) (by decide)⟩

/-- C1 counterexample to the claim as stated: on the residual
`[0, 1e-5, 1e-5, 0]` with period 2 the specification's formula gives
`1e-10`, but `gcv` clamps any `cv_mse` within `1e-8` of zero to exactly
`0.0`, so the returned `cv_mse` is not the formula's value. -/
theorem gcv_cvmse_clamp_counterexample :
    (gcv [0, 1/100000, 1/100000, 0] 2).1
        ≠ specCvMse [0, 1/100000, 1/100000, 0] 2
    ∧ (gcv [0, 1/100000, 1/100000, 0] 2).1 = 0
    ∧ specCvMse [0, 1/100000, 1/100000, 0] 2 = 1/10000000000 := by
  have hspec : specCvMse [0, 1/100000, 1/100000, 0] 2 = 1/10000000000 := by
    norm_num [specCvMse, specBucket, specPhaseSse, mean, List.enum,
      List.enumFrom, List.filter, List.range_succ]
  have hgcv : (gcv [0, 1/100000, 1/100000, 0] 2).1 = 0 := by
    norm_num [gcv, gcvLoop, Function.update_apply, List.range_succ, atol, abs_le]
  refine ⟨?_, hgcv, hspec⟩
  rw [hgcv, hspec]
  norm_num

/-- `pyRound` stays within one of the floor. -/
theorem pyRound_bounds (q : ℚ) : ⌊q⌋ ≤ pyRound q ∧ pyRound q ≤ ⌊q⌋ + 1 := by
  unfold pyRound
  split_ifs <;> omega

/-- Round-half-to-even is monotone. -/
theorem pyRound_mono {a b : ℚ} (h : a ≤ b) : pyRound a ≤ pyRound b := by
  have hf : ⌊a⌋ ≤ ⌊b⌋ := Int.floor_le_floor h
  rcases eq_or_lt_of_le hf with heq | hlt
  · have hcast : ((⌊a⌋ : ℚ)) = (⌊b⌋ : ℚ) := by rw [heq]
    have hr : a - (⌊a⌋ : ℚ) ≤ b - (⌊b⌋ : ℚ) := by rw [← hcast]; linarith
    unfold pyRound
    split_ifs <;> first | omega | linarith
  · have h1 := (pyRound_bounds a).2
    have h2 := (pyRound_bounds b).1
    omega

/-- Every period surviving `collapse` was one of the input periods. -/
theorem collapse_fst_mem : ∀ (l : List (ℕ × ℚ)) (z : ℕ × ℚ),
    z ∈ collapse l → z.1 ∈ l.map Prod.fst := by
  intro l
  induction l with
  | nil => intro z hz; simp [collapse] at hz
  | cons x xs ih =>
    intro z hz
    rcases hc : collapse xs with _ | ⟨y, ys⟩
    · have hcol : collapse (x :: xs) = [x] := by rw [collapse, hc]
      rw [hcol] at hz
      simp only [List.mem_singleton] at hz
      subst hz
      simp
    · have hcol : collapse (x :: xs)
          = if x.1 = y.1 then (x.1, max x.2 y.2) :: ys else x :: y :: ys := by
        rw [collapse, hc]
      rw [hcol] at hz
      by_cases heq : x.1 = y.1
      · rw [if_pos heq] at hz
        rcases List.mem_cons.mp hz with h1 | h2
        · subst h1; simp
        · have : z ∈ collapse xs := by rw [hc]; exact List.mem_cons_of_mem _ h2
          simpa using Or.inr (by simpa using ih z this)
      · rw [if_neg heq] at hz
        rcases List.mem_cons.mp hz with h1 | h2
        · subst h1; simp
        · have : z ∈ collapse xs := by rw [hc]; exact h2
          simpa using Or.inr (by simpa using ih z this)

/-- `collapse` turns a non-increasing period sequence into a strictly
decreasing one (duplicates are merged). -/
theorem collapse_sorted : ∀ l : List (ℕ × ℚ),
    l.Pairwise (fun x y => y.1 ≤ x.1) →
    (collapse l).Pairwise (fun x y => y.1 < x.1) := by
  intro l
  induction l with
  | nil => intro _; simp [collapse]
  | cons x xs ih =>
    intro hp
    rw [List.pairwise_cons] at hp
    obtain ⟨hx, hxs⟩ := hp
    have ihs := ih hxs
    rcases hc : collapse xs with _ | ⟨y, ys⟩
    · have hcol : collapse (x :: xs) = [x] := by rw [collapse, hc]
      rw [hcol]
      simp
    · have hcol : collapse (x :: xs)
          = if x.1 = y.1 then (x.1, max x.2 y.2) :: ys else x :: y :: ys := by
        rw [collapse, hc]
      rw [hcol]
      rw [hc] at ihs
      have hyx : y.1 ≤ x.1 := by
        have hmem : y.1 ∈ xs.map Prod.fst :=
          collapse_fst_mem xs y (by rw [hc]; exact List.mem_cons_self _ _)
        obtain ⟨w, hw, hwy⟩ := List.mem_map.mp hmem
        rw [← hwy]
        exact hx w hw
      rw [List.pairwise_cons] at ihs
      obtain ⟨hy, hys⟩ := ihs
      by_cases heq : x.1 = y.1
      · rw [if_pos heq]
        rw [List.pairwise_cons]
        exact ⟨fun z hz => heq ▸ hy z hz, hys⟩
      · rw [if_neg heq]
        have hlt : y.1 < x.1 := lt_of_le_of_ne hyx (fun h => heq h.symm)
        rw [List.pairwise_cons]
        refine ⟨?_, List.pairwise_cons.mpr ⟨hy, hys⟩⟩
        intro z hz
        rcases List.mem_cons.mp hz with h1 | h2
        · rw [h1]; exact hlt
        · exact lt_trans (hy z h2) hlt

/-- The raw reciprocal-frequency periods `round(nperseg/k)` are
non-increasing in the bin index `k`. -/
theorem raw_pairs_antitone (nperseg : ℕ) (pow : List ℚ) :
    ((List.range' 1 (nperseg / 2)).map
      (fun (k : ℕ) => ((pyRound ((nperseg : ℚ) / (k : ℚ))).toNat, pow.getD k 0))).Pairwise
      (fun x y => y.1 ≤ x.1) := by
  rw [List.pairwise_map]
  have hlt := List.pairwise_lt_range' 1 (nperseg / 2) 1
  refine hlt.imp_of_mem ?_
  intro a b ha hb hab
  have ha1 : 1 ≤ a := (List.mem_range'_1.mp ha).1
  have hdiv : (nperseg : ℚ) / (b : ℚ) ≤ (nperseg : ℚ) / (a : ℚ) := by
    apply div_le_div_of_nonneg_left (by positivity) (by positivity)
    exact_mod_cast le_of_lt hab
  exact Int.toNat_le_toNat (pyRound_mono hdiv)

/-- The mapped power-zeroing step of `periodogram` keeps every period. -/
theorem zero_map_fst (nperseg : ℕ) (l : List (ℕ × ℚ)) :
    (l.map (fun pr => if pr.1 = nperseg then (pr.1, (0 : ℚ)) else pr)).map Prod.fst
      = l.map Prod.fst := by
  rw [List.map_map]
  apply List.map_congr_left
  intro a _
  by_cases h : a.1 = nperseg <;> simp [h]

/-- A Python slice is a sublist. -/
theorem pySlice_sublist {α : Type} (l : List α) (a b : ℤ) :
    (pySlice l a b).Sublist l :=
  (List.take_sublist _ _).trans (List.drop_sublist _ _)

/-- The trimmed periodogram pairs carry strictly decreasing periods. -/
theorem periodogramPre_pairwise (ext : SciExt) (data : List ℚ)
    (maxPeriodArg : Option ℕ) :
    (periodogramPre ext data maxPeriodArg).Pairwise (fun x y => y.1 < x.1) := by
  rw [periodogramPre]
  have hcol := collapse_sorted _ (raw_pairs_antitone
    (npersegOf data.length (resolveMaxPeriod data.length maxPeriodArg))
    (ext.welch data (npersegOf data.length (resolveMaxPeriod data.length maxPeriodArg))))
  rw [List.pairwise_map]
  refine hcol.imp ?_
  intro a b hab
  by_cases ha : a.1 = npersegOf data.length (resolveMaxPeriod data.length maxPeriodArg) <;>
    by_cases hb : b.1 = npersegOf data.length (resolveMaxPeriod data.length maxPeriodArg) <;>
    simp [ha, hb] <;> omega

/-- Strictly decreasing periods survive the range trimming. -/
theorem periodogramPairs_pairwise (ext : SciExt) (data : List ℚ)
    (minPeriod : ℕ) (maxPeriodArg : Option ℕ) :
    (periodogramPairs ext data minPeriod maxPeriodArg).Pairwise
      (fun x y => y.1 < x.1) :=
  List.Pairwise.sublist (pySlice_sublist _ _ _)
    (periodogramPre_pairwise ext data maxPeriodArg)

/-- C6: `periodogram` returns equal-length period and power sequences, the
periods strictly decreasing (each later period smaller), hence pairwise
distinct, power aligned elementwise by construction from the collapsed
(period, power) pairs. -/
theorem periodogram_decreasing_distinct_aligned (ext : SciExt) (data : List ℚ)
    (minPeriod : ℕ) (maxPeriodArg : Option ℕ) :
    (periodogram ext data minPeriod maxPeriodArg).1.length
        = (periodogram ext data minPeriod maxPeriodArg).2.length
    ∧ (periodogram ext data minPeriod maxPeriodArg).1.Pairwise (fun a b => b < a)
    ∧ (periodogram ext data minPeriod maxPeriodArg).1.Pairwise (fun a b => a ≠ b) := by
  have hpw := periodogramPairs_pairwise ext data minPeriod maxPeriodArg
  refine ⟨by simp [periodogram], ?_, ?_⟩
  · rw [periodogram, List.pairwise_map]
    exact hpw
  · rw [periodogram, List.pairwise_map]
    exact hpw.imp (fun hab => Nat.ne_of_gt hab)

/-- `getD` through `List.set` at a different index. -/
theorem getD_set_ne (l : List ℚ) (i j : ℕ) (a : ℚ) (h : i ≠ j) :
    (l.set i a).getD j 0 = l.getD j 0 := by
  rcases lt_or_ge j l.length with hj | hj
  · have hj2 : j < (l.set i a).length := by rw [List.length_set]; exact hj
    rw [List.getD_eq_getElem _ _ hj2, List.getD_eq_getElem _ _ hj,
      List.getElem_set, if_neg h]
  · rw [List.getD_eq_default _ _ (by rw [List.length_set]; exact hj),
      List.getD_eq_default _ _ hj]

/-- `np.argmax` points into the list. -/
theorem argmaxIdx_lt_length : ∀ (l : List ℚ), l ≠ [] → argmaxIdx l < l.length := by
  intro l
  induction l with
  | nil => intro h; exact absurd rfl h
  | cons x xs ih =>
    intro _
    cases xs with
    | nil => simp [argmaxIdx]
    | cons y ys =>
      rw [argmaxIdx]
      split_ifs with h
      · have := ih (by simp)
        simpa using Nat.succ_lt_succ this
      · simp

/-- `np.argmax` attains the maximum value. -/
theorem getD_le_argmax : ∀ (l : List ℚ) (j : ℕ), j < l.length →
    l.getD j 0 ≤ l.getD (argmaxIdx l) 0 := by
  intro l
  induction l with
  | nil => intro j hj; simp at hj
  | cons x xs ih =>
    intro j hj
    cases xs with
    | nil =>
      have hj0 : j = 0 := by simpa using Nat.lt_one_iff.mp (by simpa using hj)
      subst hj0
      simp [argmaxIdx]
    | cons y ys =>
      rw [argmaxIdx]
      split_ifs with h
      · rcases j with _ | j
        · simpa using le_of_lt h
        · have hj2 : j < (y :: ys).length := by simpa using hj
          simpa using ih j hj2
      · rcases j with _ | j
        · simp
        · have hj2 : j < (y :: ys).length := by simpa using hj
          have h1 := ih j hj2
          have h2 : (y :: ys).getD (argmaxIdx (y :: ys)) 0 ≤ x := le_of_not_lt h
          simpa using le_trans h1 h2

/-- Every element is bounded by `np.max`. -/
theorem le_listMax : ∀ (l : List ℚ) (x : ℚ), x ∈ l → x ≤ listMax l := by
  have haux : ∀ (l : List ℚ) (acc : ℚ), acc ≤ l.foldl max acc
      ∧ ∀ x ∈ l, x ≤ l.foldl max acc := by
    intro l
    induction l with
    | nil => intro acc; simp
    | cons z zs ih =>
      intro acc
      constructor
      · exact le_trans (le_max_left acc z) (ih (max acc z)).1
      · intro x hx
        rcases List.mem_cons.mp hx with h1 | h2
        · subst h1
          exact le_trans (le_max_right acc x) (ih (max acc x)).1
        · exact (ih (max acc z)).2 x h2
  intro l x hx
  cases l with
  | nil => simp at hx
  | cons z zs =>
    rw [listMax]
    rcases List.mem_cons.mp hx with h1 | h2
    · subst h1; exact (haux zs x).1
    · exact (haux zs z).2 x h2

/-- `getD` through `List.set` at the written index. -/
theorem getD_set_self (l : List ℚ) (i : ℕ) (a : ℚ) (h : i < l.length) :
    (l.set i a).getD i 0 = a := by
  have h2 : i < (l.set i a).length := by rw [List.length_set]; exact h
  rw [List.getD_eq_getElem _ _ h2, List.getElem_set, if_pos rfl]

/-- Every extracted peak of the greedy loop records the period and power of
some index whose current power is at least the `keep` threshold. -/
theorem peaksLoop_mem_spec (periods : List ℕ) (keep : ℚ) (hkeep : 0 < keep) :
    ∀ (fuel : ℕ) (power : List ℚ) (x : ℕ × ℚ × ℕ × ℕ),
      x ∈ peaksLoop periods keep fuel power →
      ∃ i, i < power.length ∧ x.1 = periods.getD i 0
        ∧ x.2.1 = power.getD i 0 ∧ keep ≤ power.getD i 0 := by
  intro fuel
  induction fuel with
  | zero => intro power x hx; simp [peaksLoop] at hx
  | succ fuel ih =>
    intro power x hx
    rw [peaksLoop] at hx
    by_cases hbr : power.getD (argmaxIdx power) 0 < keep
    · rw [if_pos hbr] at hx; simp at hx
    · rw [if_neg hbr] at hx
      have hkm : keep ≤ power.getD (argmaxIdx power) 0 := le_of_not_lt hbr
      have hne : power ≠ [] := by
        intro h0
        rw [h0] at hkm
        simp [List.getD] at hkm
        linarith
      rcases List.mem_cons.mp hx with h1 | h2
      · exact ⟨argmaxIdx power, argmaxIdx_lt_length power hne, by rw [h1]; rfl,
          by rw [h1]; rfl, hkm⟩
      · obtain ⟨j, hj, hx1, hx2, hx3⟩ := ih (power.set (argmaxIdx power) 0) x h2
        rw [List.length_set] at hj
        have hjne : argmaxIdx power ≠ j := by
          intro heq
          rw [← heq] at hx3
          rw [getD_set_self _ _ _ (heq ▸ hj)] at hx3
          linarith
        rw [getD_set_ne _ _ _ _ hjne] at hx2 hx3
        exact ⟨j, hj, hx1, hx2, hx3⟩

/-- The greedy extraction yields peaks in non-increasing power order. -/
theorem peaksLoop_sorted_power (periods : List ℕ) (keep : ℚ) (hkeep : 0 < keep) :
    ∀ (fuel : ℕ) (power : List ℚ), (∀ j < power.length, 0 ≤ power.getD j 0) →
      (peaksLoop periods keep fuel power).Pairwise (fun a b => b.2.1 ≤ a.2.1) := by
  intro fuel
  induction fuel with
  | zero => intro power _; simp [peaksLoop]
  | succ fuel ih =>
    intro power hpos
    rw [peaksLoop]
    by_cases hbr : power.getD (argmaxIdx power) 0 < keep
    · rw [if_pos hbr]; simp
    · rw [if_neg hbr]
      have hposset : ∀ j < (power.set (argmaxIdx power) 0).length,
          0 ≤ (power.set (argmaxIdx power) 0).getD j 0 := by
        intro j hj
        rw [List.length_set] at hj
        by_cases hje : argmaxIdx power = j
        · rw [← hje, getD_set_self _ _ _ (hje ▸ hj)]
        · rw [getD_set_ne _ _ _ _ hje]
          exact hpos j hj
      rw [List.pairwise_cons]
      refine ⟨?_, ih _ hposset⟩
      intro b hb
      obtain ⟨j, hj, _, hb2, hb3⟩ := peaksLoop_mem_spec periods keep hkeep
        fuel (power.set (argmaxIdx power) 0) b hb
      rw [List.length_set] at hj
      have hjne : argmaxIdx power ≠ j := by
        intro heq
        rw [← heq] at hb3
        rw [getD_set_self _ _ _ (heq ▸ hj)] at hb3
        linarith
      rw [getD_set_ne _ _ _ _ hjne] at hb2
      rw [hb2]
      show power.getD j 0 ≤ (peakAt periods power (argmaxIdx power)).2.1
      exact getD_le_argmax power j hj

/-- Distinct indices of a strictly decreasing period list carry distinct
periods. -/
theorem strictly_decreasing_getD_injective (periods : List ℕ)
    (hper : periods.Pairwise (fun a b => b < a)) (i j : ℕ)
    (hi : i < periods.length) (hj : j < periods.length) (hne : i ≠ j) :
    periods.getD i 0 ≠ periods.getD j 0 := by
  rw [List.getD_eq_getElem _ _ hi, List.getD_eq_getElem _ _ hj]
  rcases Nat.lt_or_ge i j with hij | hij
  · exact Nat.ne_of_gt ((List.pairwise_iff_getElem.mp hper) i j hi hj hij)
  · have hji : j < i := lt_of_le_of_ne hij (Ne.symm hne)
    exact Nat.ne_of_lt ((List.pairwise_iff_getElem.mp hper) j i hj hi hji)

/-- No period is extracted twice by the greedy loop. -/
theorem peaksLoop_distinct_periods (periods : List ℕ) (keep : ℚ)
    (hkeep : 0 < keep) (hper : periods.Pairwise (fun a b => b < a)) :
    ∀ (fuel : ℕ) (power : List ℚ), periods.length = power.length →
      (peaksLoop periods keep fuel power).Pairwise (fun a b => a.1 ≠ b.1) := by
  intro fuel
  induction fuel with
  | zero => intro power _; simp [peaksLoop]
  | succ fuel ih =>
    intro power hlen
    rw [peaksLoop]
    by_cases hbr : power.getD (argmaxIdx power) 0 < keep
    · rw [if_pos hbr]; simp
    · rw [if_neg hbr]
      have hkm : keep ≤ power.getD (argmaxIdx power) 0 := le_of_not_lt hbr
      have hne : power ≠ [] := by
        intro h0
        rw [h0] at hkm
        simp [List.getD] at hkm
        linarith
      have hargm := argmaxIdx_lt_length power hne
      rw [List.pairwise_cons]
      refine ⟨?_, ih _ (by rw [List.length_set]; exact hlen)⟩
      intro b hb
      obtain ⟨j, hj, hb1, _, hb3⟩ := peaksLoop_mem_spec periods keep hkeep
        fuel (power.set (argmaxIdx power) 0) b hb
      rw [List.length_set] at hj
      have hjne : argmaxIdx power ≠ j := by
        intro heq
        rw [← heq] at hb3
        rw [getD_set_self _ _ _ (heq ▸ hj)] at hb3
        linarith
      show (peakAt periods power (argmaxIdx power)).1 ≠ b.1
      rw [hb1]
      exact strictly_decreasing_getD_injective periods hper _ _
        (by omega) (by omega) hjne

/-- C4: every peak list returned by `periodogram_peaks` is ordered by
non-increasing power and contains each peak period at most once.  The power
spectrum is assumed elementwise nonnegative (as `scipy.signal.welch` spectra
are) and the threshold positive (its documented domain is `(0, 1]`). -/
theorem periodogram_peaks_descending_dedup (ext : SciExt) (data : List ℚ)
    (minPeriod : ℕ) (maxPeriodArg : Option ℕ) (thresh : ℚ)
    (l : List (ℕ × ℚ × ℕ × ℕ)) (hth : 0 < thresh)
    (hpos : ∀ j < (periodogram ext data minPeriod maxPeriodArg).2.length,
      0 ≤ (periodogram ext data minPeriod maxPeriodArg).2.getD j 0)
    (hsome : periodogram_peaks ext data minPeriod maxPeriodArg thresh = some l) :
    l.Pairwise (fun a b => b.2.1 ≤ a.2.1) ∧ l.Pairwise (fun a b => a.1 ≠ b.1) := by
  simp only [periodogram_peaks] at hsome
  by_cases hall : (periodogram ext data minPeriod maxPeriodArg).2.all
      (fun w => decide (|w| ≤ atol)) = true
  · rw [if_pos hall] at hsome
    exact absurd hsome (by simp)
  · rw [if_neg hall] at hsome
    have hkeep : 0 < listMax (periodogram ext data minPeriod maxPeriodArg).2 * thresh := by
      have hex : ∃ w ∈ (periodogram ext data minPeriod maxPeriodArg).2,
          ¬ (|w| ≤ atol) := by
        by_contra hcon
        push_neg at hcon
        exact hall (List.all_eq_true.mpr (fun w hw => by
          simpa using hcon w hw))
      obtain ⟨w, hwmem, hwa⟩ := hex
      obtain ⟨j, hj, hjw⟩ := List.mem_iff_getElem.mp hwmem
      have hw0 : 0 ≤ w := by
        have := hpos j hj
        rwa [List.getD_eq_getElem _ _ hj, hjw] at this
      have hwgt : atol < w := by
        rw [abs_of_nonneg hw0] at hwa
        linarith [not_le.mp hwa]
      have hmax : w ≤ listMax (periodogram ext data minPeriod maxPeriodArg).2 :=
        le_listMax _ w hwmem
      have hatol : (0 : ℚ) < atol := by norm_num [atol]
      exact mul_pos (by linarith) hth
    by_cases hemp : (peaksLoop (periodogram ext data minPeriod maxPeriodArg).1
        (listMax (periodogram ext data minPeriod maxPeriodArg).2 * thresh)
        (periodogram ext data minPeriod maxPeriodArg).2.length
        (periodogram ext data minPeriod maxPeriodArg).2).isEmpty = true
    · rw [if_pos hemp] at hsome
      exact absurd hsome (by simp)
    · rw [if_neg hemp] at hsome
      have hl := Option.some.inj hsome
      have hper : (periodogram ext data minPeriod maxPeriodArg).1.Pairwise
          (fun a b => b < a) := by
        rw [periodogram, List.pairwise_map]
        exact periodogramPairs_pairwise ext data minPeriod maxPeriodArg
      have hlen : (periodogram ext data minPeriod maxPeriodArg).1.length
          = (periodogram ext data minPeriod maxPeriodArg).2.length := by
        simp [periodogram]
      rw [← hl]
      exact ⟨peaksLoop_sorted_power _ _ hkeep _ _ hpos,
        peaksLoop_distinct_periods _ _ hkeep hper _ _ hlen⟩

/-- Evaluation of the rounded reciprocal bins for `nperseg = 10`. -/
theorem pyRound_bins_ten :
    pyRound ((10 : ℚ)) = 10 ∧ pyRound ((5 : ℚ)) = 5
    ∧ pyRound ((10 : ℚ) / 3) = 3 ∧ pyRound ((5 : ℚ) / 2) = 2
    ∧ pyRound ((2 : ℚ)) = 2 := by
  refine ⟨?_, ?_, ?_, ?_, ?_⟩ <;> norm_num [pyRound]

/-- Concrete evaluation of the periodogram post-processing on a spectrum of
ones: `len(data) = 20`, `min_period = 4`, `max_period = 6` give
`nperseg = 10`, collapsed bin periods `10, 5, 3, 2`, power zeroed at the
window length, and the trim retains `periods = [10, 5]` — the leading period
`10` exceeding `max_period = 6`. -/
theorem periodogramPre_ones_eval :
    periodogramPre sciOnes (List.replicate 20 0) (some 6)
      = [(10, 0), (5, 1), (3, 1), (2, 1)] := by
  obtain ⟨e1, e2, e3, e4, e5⟩ := pyRound_bins_ten
  have t2 : Int.toNat 2 = 2 := rfl
  have t3 : Int.toNat 3 = 3 := rfl
  have t5 : Int.toNat 5 = 5 := rfl
  have t10 : Int.toNat 10 = 10 := rfl
  rw [periodogramPre]
  norm_num [resolveMaxPeriod, npersegOf, sciOnes, List.range']
  norm_num [collapse, e1, e2, e3, e4, e5, t2, t3, t5, t10]

/-- The trimmed periodogram of the same instance. -/
theorem periodogram_ones_eval :
    periodogram sciOnes (List.replicate 20 0) 4 (some 6) = ([10, 5], [0, 1]) := by
  have t2 : Int.toNat 2 = 2 := rfl
  rw [periodogram, periodogramPairs, periodogramPre_ones_eval]
  norm_num [periodogramLoIdx, periodogramHiCnt, resolveMaxPeriod, pySlice, pyClamp, t2]

/-- C4 witness: the all-ones spectrum instance yields a single peak list. -/
theorem periodogram_peaks_descending_dedup_witness :
    (0 : ℚ) < 9/10
    ∧ (∀ j < (periodogram sciOnes (List.replicate 20 0) 4 (some 6)).2.length,
        0 ≤ (periodogram sciOnes (List.replicate 20 0) 4 (some 6)).2.getD j 0)
    ∧ periodogram_peaks sciOnes (List.replicate 20 0) 4 (some 6) (9/10)
        = some [(5, 1, 5, 10)]
    ∧ ([((5 : ℕ), (1 : ℚ), (5 : ℕ), (10 : ℕ))].Pairwise (fun a b => b.2.1 ≤ a.2.1)
      ∧ [((5 : ℕ), (1 : ℚ), (5 : ℕ), (10 : ℕ))].Pairwise (fun a b => a.1 ≠ b.1)) := by
  have hpos : ∀ j < (periodogram sciOnes (List.replicate 20 0) 4 (some 6)).2.length,
      0 ≤ (periodogram sciOnes (List.replicate 20 0) 4 (some 6)).2.getD j 0 := by
    rw [periodogram_ones_eval]
    intro j hj
    simp only [List.length_cons, List.length_nil] at hj
    interval_cases j <;> norm_num
  have hev : periodogram_peaks sciOnes (List.replicate 20 0) 4 (some 6) (9/10)
      = some [(5, 1, 5, 10)] := by
    simp only [periodogram_peaks, periodogram_ones_eval]
    norm_num [atol, listMax, peaksLoop, argmaxIdx, peakAt]
  exact ⟨by norm_num, hpos, hev,
    periodogram_peaks_descending_dedup sciOnes (List.replicate 20 0) 4 (some 6)
      (9/10) [(5, 1, 5, 10)] (by norm_num) hpos hev⟩

/-- C3 counterexample to the claim as stated: with `len(data) = 20`,
`min_period = 4`, `max_period = 6` and an all-ones spectrum, the returned
periods are `[10, 5]`: the leading period `10` violates
`p ≤ max_period = 6` (the slice deliberately begins at the last FFT period
`>= max_period`). -/
theorem periodogram_bounds_counterexample :
    ¬ (∀ p ∈ (periodogram sciOnes (List.replicate 20 0) 4 (some 6)).1,
        4 ≤ p ∧ p ≤ 6) := by
  rw [periodogram_ones_eval]
  intro h
  have h10 := h 10 (by simp)
  omega

/-- In a list with non-increasing periods, the entries at least `c` are
exactly the first `countP` ones. -/
theorem sorted_countP_prefix (c : ℕ) : ∀ (l : List (ℕ × ℚ)),
    l.Pairwise (fun x y => y.1 ≤ x.1) → ∀ j < l.length,
    (c ≤ (l.getD j (0, 0)).1 ↔ j < l.countP (fun pr => decide (c ≤ pr.1))) := by
  intro l
  induction l with
  | nil => intro _ j hj; simp at hj
  | cons x xs ih =>
    intro hp j hj
    rw [List.pairwise_cons] at hp
    obtain ⟨hx, hxs⟩ := hp
    rw [List.countP_cons]
    by_cases hpx : c ≤ x.1
    · rw [if_pos (by simpa using hpx)]
      rcases j with _ | j
      · simpa using hpx
      · rw [List.getD_cons_succ]
        have hj2 : j < xs.length := by simpa using hj
        rw [ih hxs j hj2]
        omega
    · rw [if_neg (by simpa using hpx)]
      have hzero : xs.countP (fun pr => decide (c ≤ pr.1)) = 0 :=
        List.countP_eq_zero.mpr (fun a ha => by
          simp only [decide_eq_true_eq]
          have := hx a ha
          omega)
      rw [hzero]
      rcases j with _ | j
      · simpa using hpx
      · rw [List.getD_cons_succ]
        have hj2 : j < xs.length := by simpa using hj
        have hmem : xs.getD j (0, 0) ∈ xs := by
          rw [List.getD_eq_getElem _ _ hj2]
          exact List.getElem_mem hj2
        have := hx _ hmem
        constructor
        · intro hc; omega
        · intro hc; omega

/-- In a list with non-increasing periods, the entries below `c` are exactly
the last `countP` ones. -/
theorem sorted_countP_suffix (c : ℕ) : ∀ (l : List (ℕ × ℚ)),
    l.Pairwise (fun x y => y.1 ≤ x.1) → ∀ j < l.length,
    ((l.getD j (0, 0)).1 < c ↔
      l.length - l.countP (fun pr => decide (pr.1 < c)) ≤ j) := by
  intro l
  induction l with
  | nil => intro _ j hj; simp at hj
  | cons x xs ih =>
    intro hp j hj
    rw [List.pairwise_cons] at hp
    obtain ⟨hx, hxs⟩ := hp
    rw [List.countP_cons]
    by_cases hpx : x.1 < c
    · rw [if_pos (by simpa using hpx)]
      have hall : xs.countP (fun pr => decide (pr.1 < c)) = xs.length :=
        List.countP_eq_length.mpr (fun a ha => by
          simp only [decide_eq_true_eq]
          have := hx a ha
          omega)
      rw [hall]
      rcases j with _ | j
      · simp only [List.getD_cons_zero, List.length_cons]
        constructor
        · intro _; omega
        · intro _; exact hpx
      · rw [List.getD_cons_succ]
        have hj2 : j < xs.length := by simpa using hj
        have hmem : xs.getD j (0, 0) ∈ xs := by
          rw [List.getD_eq_getElem _ _ hj2]
          exact List.getElem_mem hj2
        have := hx _ hmem
        simp only [List.length_cons]
        constructor
        · intro _; omega
        · intro _; omega
    · rw [if_neg (by simpa using hpx)]
      have hle := List.countP_le_length (fun pr => decide (pr.1 < c)) (l := xs)
      rcases j with _ | j
      · simp only [List.getD_cons_zero, List.length_cons]
        constructor
        · intro hc; omega
        · intro hc; omega
      · rw [List.getD_cons_succ]
        have hj2 : j < xs.length := by simpa using hj
        rw [ih hxs j hj2]
        simp only [List.length_cons]
        omega

/-- Two disjoint predicates count at most the whole list. -/
theorem countP_disjoint_le (p q : (ℕ × ℚ) → Bool) : ∀ (l : List (ℕ × ℚ)),
    (∀ x ∈ l, ¬(p x = true ∧ q x = true)) →
    l.countP p + l.countP q ≤ l.length := by
  intro l
  induction l with
  | nil => intro _; simp
  | cons x xs ih =>
    intro h
    rw [List.countP_cons, List.countP_cons]
    have hx := h x (List.mem_cons_self _ _)
    have hxs := ih (fun z hz => h z (List.mem_cons_of_mem _ hz))
    by_cases hp : p x = true <;> by_cases hq : q x = true
    · exact absurd (And.intro hp hq) hx
    · rw [if_pos hp, if_neg hq]; simp only [List.length_cons]; omega
    · rw [if_neg hp, if_pos hq]; simp only [List.length_cons]; omega
    · rw [if_neg hp, if_neg hq]; simp only [List.length_cons]; omega

/-- `getD` through `take` (any element type). -/
theorem getD_take_any {α : Type} (l : List α) (d : α) (n i : ℕ) (hi : i < n)
    (hl : i < l.length) : (l.take n).getD i d = l.getD i d := by
  have ht : i < (l.take n).length := by
    rw [List.length_take]; exact lt_min hi hl
  rw [List.getD_eq_getElem _ _ ht, List.getD_eq_getElem _ _ hl, List.getElem_take]

/-- `getD` through `drop`. -/
theorem getD_drop_any {α : Type} (l : List α) (d : α) (a i : ℕ)
    (h : a + i < l.length) : (l.drop a).getD i d = l.getD (a + i) d := by
  have hd : i < (l.drop a).length := by
    rw [List.length_drop]; omega
  rw [List.getD_eq_getElem _ _ hd, List.getD_eq_getElem _ _ h, List.getElem_drop]

/-- C3 (amended): after zeroing the window-length artifact, the range trim of
`periodogram` keeps every period at least `min_period`, and every period
except the first is strictly below `max_period`; the first retained period is
the last FFT-grid period at least `max_period` and may exceed `max_period`
(the claimed upper bound fails there, see the counterexample).  Hypotheses:
ordered bounds, at least one bin period `≥ max_period` and at least one below
`min_period`. -/
theorem periodogram_bounds_amended (ext : SciExt) (data : List ℚ)
    (minPeriod : ℕ) (maxPeriodArg : Option ℕ)
    (hmm : minPeriod ≤ resolveMaxPeriod data.length maxPeriodArg)
    (hc1 : 1 ≤ (periodogramPre ext data maxPeriodArg).countP
      (fun pr => decide (resolveMaxPeriod data.length maxPeriodArg ≤ pr.1)))
    (hc2 : 1 ≤ (periodogramPre ext data maxPeriodArg).countP
      (fun pr => decide (pr.1 < minPeriod))) :
    (∀ p ∈ (periodogram ext data minPeriod maxPeriodArg).1, minPeriod ≤ p)
    ∧ (∀ i, 0 < i → i < (periodogram ext data minPeriod maxPeriodArg).1.length →
        (periodogram ext data minPeriod maxPeriodArg).1.getD i 0
          < resolveMaxPeriod data.length maxPeriodArg)
    ∧ resolveMaxPeriod data.length maxPeriodArg
        ≤ (periodogram ext data minPeriod maxPeriodArg).1.getD 0 0 := by
  set maxP := resolveMaxPeriod data.length maxPeriodArg with hmaxP
  set pre := periodogramPre ext data maxPeriodArg with hpre
  set c1 := pre.countP (fun pr => decide (maxP ≤ pr.1)) with hc1d
  set c2 := pre.countP (fun pr => decide (pr.1 < minPeriod)) with hc2d
  have hsort : pre.Pairwise (fun x y => y.1 ≤ x.1) :=
    (periodogramPre_pairwise ext data maxPeriodArg).imp (fun h => le_of_lt h)
  have hdisj : c1 + c2 ≤ pre.length := by
    refine countP_disjoint_le _ _ pre (fun x _ h => ?_)
    obtain ⟨h1, h2⟩ := h
    simp only [decide_eq_true_eq] at h1 h2
    omega
  have hc2len : c2 ≤ pre.length := List.countP_le_length _
  have hA : pyClamp pre.length ((c1 : ℤ) - 1) = c1 - 1 := by
    rw [pyClamp, if_neg (by omega)]
    have ht : ((c1 : ℤ) - 1).toNat = c1 - 1 := by omega
    rw [ht]
    exact Nat.min_eq_left (by omega)
  have hB : pyClamp pre.length (-(c2 : ℤ)) = pre.length - c2 := by
    rw [pyClamp, if_pos (by omega)]
    omega
  have hslice : periodogramPairs ext data minPeriod maxPeriodArg
      = (pre.drop (c1 - 1)).take (pre.length - c2 - (c1 - 1)) := by
    rw [periodogramPairs, pySlice]
    rw [periodogramLoIdx, periodogramHiCnt]
    rw [← hpre, ← hmaxP, ← hc1d, ← hc2d, hA, hB]
  have hlen3 : (periodogramPairs ext data minPeriod maxPeriodArg).length
      = pre.length - c2 - (c1 - 1) := by
    rw [hslice, List.length_take, List.length_drop]
    omega
  have hget : ∀ i < pre.length - c2 - (c1 - 1),
      (periodogramPairs ext data minPeriod maxPeriodArg).getD i (0, 0)
        = pre.getD (c1 - 1 + i) (0, 0) := by
    intro i hi
    rw [hslice, getD_take_any _ _ _ _ hi (by rw [List.length_drop]; omega),
      getD_drop_any _ _ _ _ (by omega)]
  have hmapfst : (periodogram ext data minPeriod maxPeriodArg).1
      = (periodogramPairs ext data minPeriod maxPeriodArg).map Prod.fst := rfl
  refine ⟨?_, ?_, ?_⟩
  · intro p hp
    rw [hmapfst] at hp
    obtain ⟨pr, hpr, hfst⟩ := List.mem_map.mp hp
    obtain ⟨i, hi, hieq⟩ := List.mem_iff_getElem.mp hpr
    have hi3 : i < pre.length - c2 - (c1 - 1) := by rw [← hlen3]; exact hi
    have hprd : pr = pre.getD (c1 - 1 + i) (0, 0) := by
      rw [← hieq, ← List.getD_eq_getElem _ _ hi]
      exact hget i hi3
    have hjlen : c1 - 1 + i < pre.length := by omega
    have hsuf := (sorted_countP_suffix minPeriod pre hsort (c1 - 1 + i) hjlen)
    rw [← hc2d] at hsuf
    have hnot : ¬ ((pre.getD (c1 - 1 + i) (0, 0)).1 < minPeriod) := by
      rw [hsuf]
      omega
    rw [← hfst, hprd]
    omega
  · intro i hipos hilen
    rw [hmapfst] at hilen
    rw [List.length_map, hlen3] at hilen
    have hgi : (periodogram ext data minPeriod maxPeriodArg).1.getD i 0
        = (pre.getD (c1 - 1 + i) (0, 0)).1 := by
      rw [hmapfst]
      have hilen2 : i < ((periodogramPairs ext data minPeriod maxPeriodArg).map
          Prod.fst).length := by
        rw [List.length_map, hlen3]; exact hilen
      rw [List.getD_eq_getElem _ _ hilen2, List.getElem_map,
        ← List.getD_eq_getElem _ _ (by rw [hlen3]; exact hilen), hget i hilen]
    rw [hgi]
    have hjlen : c1 - 1 + i < pre.length := by omega
    have hpref := sorted_countP_prefix maxP pre hsort (c1 - 1 + i) hjlen
    rw [← hc1d] at hpref
    have hnot : ¬ (maxP ≤ (pre.getD (c1 - 1 + i) (0, 0)).1) := by
      rw [hpref]
      omega
    omega
  · have h0 : 0 < pre.length - c2 - (c1 - 1) := by omega
    have hgi : (periodogram ext data minPeriod maxPeriodArg).1.getD 0 0
        = (pre.getD (c1 - 1 + 0) (0, 0)).1 := by
      rw [hmapfst]
      have hilen2 : 0 < ((periodogramPairs ext data minPeriod maxPeriodArg).map
          Prod.fst).length := by
        rw [List.length_map, hlen3]; exact h0
      rw [List.getD_eq_getElem _ _ hilen2, List.getElem_map,
        ← List.getD_eq_getElem _ _ (by rw [hlen3]; exact h0), hget 0 h0]
    rw [hgi]
    have hjlen : c1 - 1 + 0 < pre.length := by omega
    have hpref := sorted_countP_prefix maxP pre hsort (c1 - 1 + 0) hjlen
    rw [← hc1d] at hpref
    rw [hpref]
    omega

/-- C3 witness for the amended bounds on the all-ones spectrum instance:
`periods = [10, 5]`, every entry at least `min_period = 4`, every entry after
the head below `max_period = 6`, and the head at least `max_period`. -/
theorem periodogram_bounds_amended_witness :
    (4 ≤ resolveMaxPeriod (List.replicate 20 (0 : ℚ)).length (some 6))
    ∧ (1 ≤ (periodogramPre sciOnes (List.replicate 20 0) (some 6)).countP
        (fun pr => decide (resolveMaxPeriod (List.replicate 20 (0 : ℚ)).length
          (some 6) ≤ pr.1)))
    ∧ (1 ≤ (periodogramPre sciOnes (List.replicate 20 0) (some 6)).countP
        (fun pr => decide (pr.1 < 4)))
    ∧ ((∀ p ∈ (periodogram sciOnes (List.replicate 20 0) 4 (some 6)).1, 4 ≤ p)
      ∧ (∀ i, 0 < i →
          i < (periodogram sciOnes (List.replicate 20 0) 4 (some 6)).1.length →
          (periodogram sciOnes (List.replicate 20 0) 4 (some 6)).1.getD i 0
            < resolveMaxPeriod (List.replicate 20 (0 : ℚ)).length (some 6))
      ∧ resolveMaxPeriod (List.replicate 20 (0 : ℚ)).length (some 6)
          ≤ (periodogram sciOnes (List.replicate 20 0) 4 (some 6)).1.getD 0 0) := by
  have h1 : (4 : ℕ) ≤ resolveMaxPeriod (List.replicate 20 (0 : ℚ)).length (some 6) := by
    norm_num [resolveMaxPeriod]
  have h2 : 1 ≤ (periodogramPre sciOnes (List.replicate 20 0) (some 6)).countP
      (fun pr => decide (resolveMaxPeriod (List.replicate 20 (0 : ℚ)).length
        (some 6) ≤ pr.1)) := by
    rw [periodogramPre_ones_eval]
    norm_num [resolveMaxPeriod, List.countP_cons]
  have h3 : 1 ≤ (periodogramPre sciOnes (List.replicate 20 0) (some 6)).countP
      (fun pr => decide (pr.1 < 4)) := by
    rw [periodogramPre_ones_eval]
    norm_num [List.countP_cons]
  exact ⟨h1, h2, h3,
    periodogram_bounds_amended sciOnes (List.replicate 20 0) 4 (some 6) h1 h2 h3⟩

/-- `setRange` preserves the length when the written range fits. -/
theorem setRange_length {α : Type} (l : List α) (a : ℕ) (vals : List α)
    (h : a + vals.length ≤ l.length) : (setRange l a vals).length = l.length := by
  simp only [setRange, List.length_append, List.length_take, List.length_drop]
  omega

/-- `aglet` preserves the series length whenever the half-window fits. -/
theorem aglet_length (ext : SciExt) (src : List ℚ) (window : ℕ)
    (h : window / 2 ≤ src.length) :
    (aglet ext src window).length = src.length := by
  simp only [aglet, setRange, List.length_append, List.length_take,
    List.length_drop, List.length_map, List.length_range]
  omega

/-- The median filter preserves length. -/
theorem median_filter_length (data : List ℚ) (window : ℕ) :
    (median_filter data window).length = data.length := by
  simp [median_filter]

/-- The mean filter preserves length. -/
theorem mean_filter_length (data : List ℚ) (window : ℕ) :
    (mean_filter data window).length = data.length := by
  simp [mean_filter]

/-- The line filter preserves length. -/
theorem line_filter_length (ext : SciExt) (data : List ℚ) (window : ℕ) :
    (line_filter ext data window).length = data.length := by
  rw [line_filter]
  split
  · simp
  · rw [List.length_map, List.length_range]

/-- The spline filter evaluates at every index. -/
theorem spline_filter_length (ext : SciExt) (data : List ℚ) (nsegs : ℕ) :
    (spline_filter ext data nsegs).length = data.length := by
  rw [spline_filter, List.length_map, List.length_range]

/-- C7: for the recognized trend kinds (including `None`), and a resolved
smoothing window that is a genuine window (at least 3 — below that the real
filters are outside their domain: `mean_filter`'s `filtered[0:-0]` and
`aglet`'s `dst[-0:]` slice assignments fail for `half = 0`, and
`period * ptimes < 2` makes Python's window negative) and fits the data,
`fit_trend` returns a trend of the same length as the input. -/
theorem fit_trend_length (ext : SciExt) (data : List ℚ) (kind : Option String)
    (periodArg : Option ℕ) (ptimes : ℕ)
    (hkind : kind = none ∨ kind = some "mean" ∨ kind = some "median"
      ∨ kind = some "line" ∨ kind = some "spline")
    (hwin3 : 3 ≤ windowOf (resolvePeriod ext data periodArg) ptimes)
    (hwin : windowOf (resolvePeriod ext data periodArg) ptimes ≤ data.length) :
    ∃ t, fit_trend ext data kind periodArg ptimes = .ok t
      ∧ t.length = data.length := by
  rcases hkind with h | h | h | h | h <;> subst h
  · exact ⟨_, rfl, by simp⟩
  · refine ⟨aglet ext (mean_filter data
      (windowOf (resolvePeriod ext data periodArg) ptimes))
      (windowOf (resolvePeriod ext data periodArg) ptimes), by simp [fit_trend], ?_⟩
    rw [aglet_length _ _ _ (by rw [mean_filter_length]; omega), mean_filter_length]
  · refine ⟨aglet ext (median_filter data
      (windowOf (resolvePeriod ext data periodArg) ptimes))
      (windowOf (resolvePeriod ext data periodArg) ptimes), by simp [fit_trend], ?_⟩
    rw [aglet_length _ _ _ (by rw [median_filter_length]; omega), median_filter_length]
  · exact ⟨line_filter ext data (windowOf (resolvePeriod ext data periodArg) ptimes),
      by simp [fit_trend], line_filter_length _ _ _⟩
  · refine ⟨aglet ext (spline_filter ext data
      (data.length / (windowOf (resolvePeriod ext data periodArg) ptimes * 2) + 1))
      (windowOf (resolvePeriod ext data periodArg) ptimes), by simp [fit_trend], ?_⟩
    rw [aglet_length _ _ _ (by rw [spline_filter_length]; omega), spline_filter_length]

/-- C7 witness: ten flat samples, median kind, period 2 (window 3). -/
theorem fit_trend_length_witness :
    3 ≤ windowOf (resolvePeriod sciZero (List.replicate 10 0) (some 2)) 2
    ∧ windowOf (resolvePeriod sciZero (List.replicate 10 0) (some 2)) 2
        ≤ (List.replicate 10 (0 : ℚ)).length
    ∧ ∃ t, fit_trend sciZero (List.replicate 10 0) (some "median") (some 2) 2
        = .ok t ∧ t.length = (List.replicate 10 (0 : ℚ)).length :=
  ⟨by decide, by decide,
   fit_trend_length sciZero (List.replicate 10 0) (some "median") (some 2) 2
     (Or.inr (Or.inr (Or.inl rfl))) (by decide) (by decide)⟩
